import Mathlib

/-!
Verification development for the NeuroNet discrete-time spiking neural
network simulator.

The Lean definitions below are a shallow embedding of the Python sources:

* `NeuroNet/sim_core.py` — LIF neurons, the delayed-current scheduler and
  the reward-modulated plasticity engine (class `SNN`);
* `NeuroNet/core/inout_core.py` — the multi-port I/O coordinator
  (`OutputBinding`, `IOCoordinator`);
* `NeuroNet/core/runtime.py` together with `NeuroNet/core/interfaces.py` —
  the closed-loop runtime tick.

Python floats are idealised as exact arithmetic: simulation times, delays
and currents become `ℚ` (every comparison the code performs is then
decidable), while the plasticity engine, whose decay factors are powers of
the literal `2.718281828`, lives over `ℝ`.  Dictionaries are represented
by association lists or by explicitly updated functions, as noted at each
definition.
-/

namespace NeuroNet

/-! ## LIF neuron — `sim_core.py`, `LIFConfig` / `LIFState` / `Neuron` (lines 12–50) -/

/-- Static neuron configuration, `LIFConfig` in `sim_core.py`.  Field
defaults match the Python dataclass defaults. -/
structure LIFConfig where
  vRest : ℚ := 0
  vReset : ℚ := 0
  vThresh : ℚ := 1
  tauM : ℚ := 20
  rM : ℚ := 1
  tauRef : ℚ := 2

/-- Mutable neuron state, `LIFState` in `sim_core.py`.  The far-past
sentinel `-1e9` for `ref_until` is kept literally. -/
structure LIFState where
  v : ℚ := 0
  refUntil : ℚ := -1000000000

/-- A neuron bundles its configuration and state, `Neuron` in
`sim_core.py`. -/
structure Neuron where
  cfg : LIFConfig
  st : LIFState

/-- Embedding of `Neuron.step(t, dt_ms, i_ext)` from `sim_core.py` lines 34–50: returns
the updated neuron and whether it spikes at the end of the step.  During
refractoriness (`t < ref_until`) the potential is held at `v_reset` and no
spike is emitted; otherwise one explicit-Euler update is applied and the
threshold is tested. -/
def neuronStep (t dtMs iExt : ℚ) (nr : Neuron) : Neuron × Bool :=
  if t < nr.st.refUntil then
    ({ nr with st := { nr.st with v := nr.cfg.vReset } }, false)
  else
    let alpha := dtMs / nr.cfg.tauM
    let v1 := nr.st.v + alpha * (-(nr.st.v - nr.cfg.vRest) + nr.cfg.rM * iExt)
    if nr.cfg.vThresh ≤ v1 then
      ({ nr with st := { v := nr.cfg.vReset, refUntil := t + nr.cfg.tauRef } }, true)
    else
      ({ nr with st := { nr.st with v := v1 } }, false)

/-- The neuron sweep of `SNN.step` (`sim_core.py` lines 133–136): step each
neuron in ascending id order with its gathered input current `iIn id`,
collecting the ids that spiked.  The second argument is the id of the first
neuron of the list (the sweep starts at 0). -/
def stepNeurons (t dtMs : ℚ) (iIn : ℕ → ℚ) : List Neuron → ℕ → List Neuron × List ℕ
  | [], _ => ([], [])
  | nr :: rest, i =>
    let p := neuronStep t dtMs (iIn i) nr
    let pr := stepNeurons t dtMs iIn rest (i + 1)
    (p.1 :: pr.1, if p.2 then i :: pr.2 else pr.2)

/-! ## Integer-millisecond bins and the pending-current table —
`sim_core.py`, `SNN._schedule_current` / `SNN.inject_spike` and the drain
loop of `SNN.step` (lines 104–131) -/

/-- Python 3's `round` (round half to even), on exact rationals. -/
def pyRound (x : ℚ) : ℤ :=
  let f := Rat.floor x
  let r := x - f
  if r < 1 / 2 then f
  else if 1 / 2 < r then f + 1
  else if f % 2 = 0 then f else f + 1

/-- The packed dictionary key `(deliver_at_ms << 16) | target` of
`SNN._schedule_current`.  For `target < 2 ^ 16` — the regime the
specification restricts attention to — the bitwise-or of disjoint bit
ranges coincides with this sum, including for negative bins (Python's
arbitrary-precision two's complement). -/
def encodeKey (b : ℤ) (nid : ℕ) : ℤ := b * 65536 + nid

/-- The `_pending_currents` defaultdict, as an association list from packed
keys to accumulated currents.  The Python dict has each key at most once;
`addPending` preserves that shape. -/
abbrev Pending := List (ℤ × ℚ)

/-- Embedding of `self._pending_currents[key] += current`: accumulate into an existing
entry, or append a fresh one. -/
def addPending (key : ℤ) (cur : ℚ) : Pending → Pending
  | [] => [(key, cur)]
  | kc :: rest =>
    if kc.1 = key then (kc.1, kc.2 + cur) :: rest else kc :: addPending key cur rest

/-- Embedding of `SNN._schedule_current(deliver_at_ms, target, current)` (lines
104–107). -/
def scheduleCurrent (deliverAtMs : ℤ) (target : ℕ) (cur : ℚ) (p : Pending) : Pending :=
  addPending (encodeKey deliverAtMs target) cur p

/-- Embedding of `SNN.inject_spike(t, post, current)` (lines 109–112): external input is
accumulated at the bin `round(t)` of the current step. -/
def injectSpike (t : ℚ) (post : ℕ) (cur : ℚ) (p : Pending) : Pending :=
  addPending (encodeKey (pyRound t) post) cur p

/-- The drain loop at the top of `SNN.step` (lines 119–131): every entry
whose time bin (`key >> 16`, i.e. floor-division by `2 ^ 16`) equals
`now_bin` is accumulated into the input-current vector at neuron
`key & 0xFFFF` (i.e. `key mod 2 ^ 16`) and removed from the table.  The
current vector is modelled as a total function that is zero where the code
leaves `i_in` untouched. -/
def stepDrain (nowBin : ℤ) : Pending → (ℕ → ℚ) × Pending
  | [] => (fun _ => 0, [])
  | kc :: rest =>
    let pr := stepDrain nowBin rest
    if kc.1 / 65536 = nowBin then
      (fun n => if n = (kc.1 % 65536).toNat then pr.1 n + kc.2 else pr.1 n, pr.2)
    else
      (pr.1, kc :: pr.2)

/-- A synapse, `Synapse` in `sim_core.py` (lines 66–72), with the weight
carrier left as a parameter: the scheduler manipulates `Syn ℚ`, the
plasticity engine `Syn ℝ`. -/
structure Syn (α : Type) where
  pre : ℕ
  post : ℕ
  w : α
  delay : ℚ
  plastic : Bool

/-- The delivery-bin computation of `SNN.step` lines 141–143:
`deliver_at = int(round(t + delay))`, promoted to `now_bin + 1` whenever it
would not lie strictly in the future of `now_bin = round(t)`. -/
def deliverAt (t d : ℚ) : ℤ :=
  let raw := pyRound (t + d)
  if raw ≤ pyRound t then pyRound t + 1 else raw

/-- The synaptic propagation loop of `SNN.step` lines 139–144: every spike
of this step schedules, along each outgoing synapse, the synapse's weight
as a future current.  `outgoing` is the `self.outgoing` adjacency. -/
def stepPropagation (t : ℚ) (spikes : List ℕ) (outgoing : ℕ → List (Syn ℚ))
    (p : Pending) : Pending :=
  spikes.foldl
    (fun acc pre =>
      (outgoing pre).foldl
        (fun acc2 s => scheduleCurrent (deliverAt t s.delay) s.post s.w acc2) acc)
    p

/-! ## Plasticity engine — `sim_core.py`, `PlasticityConfig` (lines 53–61),
the trace bookkeeping of `SNN.step` (lines 146–176) and
`SNN.apply_reward` (lines 180–194).

Traces, eligibilities and weights are real-valued: the decay factors are
powers of the literal base `2.718281828` that the source hard-codes in
`pow(2.718281828, -dt / tau)`. -/

/-- Embedding of `PlasticityConfig` from `sim_core.py`, with the dataclass defaults. -/
structure PlasticityConfig where
  eta : ℝ := 0.002
  tauTrace : ℚ := 200
  tauElig : ℚ := 300
  aPre : ℝ := 1
  aPost : ℝ := 1
  wMin : ℝ := -1
  wMax : ℝ := 1

/-- The plasticity-relevant state of an `SNN`: the flat synapse list
`_syn_list` (stable indices), the per-index defaultdicts `_pre_tr`,
`_post_tr`, `_elig` (total functions, zero where the dict has no entry),
and `_t_last`.  The `outgoing` / `_outgoing_idx` adjacency dicts are kept
in lockstep with `_syn_list` by the code (`add_synapse` appends to both,
`apply_reward` rebuilds `outgoing`); they are therefore represented by
filtering the synapse list, see `outgoingIdx`. -/
structure PState where
  syns : List (Syn ℝ)
  preTr : ℕ → ℝ
  postTr : ℕ → ℝ
  elig : ℕ → ℝ
  tLast : ℚ
  cfg : PlasticityConfig

/-- The decay factor `pow(2.718281828, -dt / tau)` from `sim_core.py`
lines 152–154.  Note the base is the 10-digit literal, not `e`. -/
noncomputable def decayFactor (dt tau : ℚ) : ℝ :=
  (2.718281828 : ℝ) ^ (-((dt : ℝ) / (tau : ℝ)))

/-- Pointwise update of a trace dictionary. -/
def updFn (f : ℕ → ℝ) (i : ℕ) (v : ℝ) : ℕ → ℝ := fun j => if j = i then v else f j

/-- Embedding of `self._outgoing_idx[pre]`: the indices into `_syn_list` whose synapse
has source `pre`, in insertion order. -/
def outgoingIdx (syns : List (Syn ℝ)) (pre : ℕ) : List ℕ :=
  (List.range syns.length).filter (fun i => (syns.get? i).any (fun sy => sy.pre = pre))

/-- The trace/eligibility decay block of `SNN.step` (lines 148–159): if
the synapse list is nonempty, advance `t_last` and multiply the traces of
every plastic synapse by the respective decay factor.  Both `decay_pre`
and `decay_post` use `tau_trace_ms`; `decay_elig` uses `tau_elig_ms`. -/
noncomputable def decayTraces (t : ℚ) (s : PState) : PState :=
  if s.syns.isEmpty then s
  else
    let dt := t - s.tLast
    let dTr := decayFactor dt s.cfg.tauTrace
    let dEl := decayFactor dt s.cfg.tauElig
    { s with
      tLast := t
      preTr := fun i =>
        match s.syns.get? i with
        | some sy => if sy.plastic then s.preTr i * dTr else s.preTr i
        | none => s.preTr i
      postTr := fun i =>
        match s.syns.get? i with
        | some sy => if sy.plastic then s.postTr i * dTr else s.postTr i
        | none => s.postTr i
      elig := fun i =>
        match s.syns.get? i with
        | some sy => if sy.plastic then s.elig i * dEl else s.elig i
        | none => s.elig i }

/-- The pre-spike bumps of `SNN.step` (lines 162–168): for every spiking
neuron, every plastic outgoing synapse gets `pre_trace += A_pre` and
`eligibility += A_pre * post_trace`. -/
noncomputable def preBumps (spikes : List ℕ) (s : PState) : PState :=
  spikes.foldl
    (fun acc pre =>
      (outgoingIdx acc.syns pre).foldl
        (fun acc2 idx =>
          match acc2.syns.get? idx with
          | some sy =>
            if sy.plastic then
              { acc2 with
                preTr := updFn acc2.preTr idx (acc2.preTr idx + acc2.cfg.aPre)
                elig := updFn acc2.elig idx
                  (acc2.elig idx + acc2.cfg.aPre * acc2.postTr idx) }
            else acc2
          | none => acc2)
        acc)
    s

/-- The post-spike bumps of `SNN.step` (lines 171–176): for every spiking
neuron, every plastic synapse targeting it gets `post_trace += A_post` and
`eligibility += A_post * pre_trace`.  The source scans the whole synapse
list (`enumerate(self._syn_list)`). -/
noncomputable def postBumps (spikes : List ℕ) (s : PState) : PState :=
  spikes.foldl
    (fun acc post =>
      (List.range acc.syns.length).foldl
        (fun acc2 idx =>
          match acc2.syns.get? idx with
          | some sy =>
            if sy.plastic = true ∧ sy.post = post then
              { acc2 with
                postTr := updFn acc2.postTr idx (acc2.postTr idx + acc2.cfg.aPost)
                elig := updFn acc2.elig idx
                  (acc2.elig idx + acc2.cfg.aPost * acc2.preTr idx) }
            else acc2
          | none => acc2)
        acc)
    s

/-- The plasticity bookkeeping of one `SNN.step` call at time `t`, given
the spike list this step produced: decay first, then pre-spike bumps, then
post-spike bumps (`sim_core.py` lines 146–176). -/
noncomputable def stepPlasticity (t : ℚ) (spikes : List ℕ) (s : PState) : PState :=
  postBumps spikes (preBumps spikes (decayTraces t s))

/-- The clipping expression `max(w_min, min(w_max, w + dw))` of
`SNN.apply_reward`. -/
noncomputable def clip (lo hi x : ℝ) : ℝ := max lo (min hi x)

/-- The rebuild loop of `SNN.apply_reward` (lines 183–190): each plastic
synapse at index `i` gets weight `clip(w + eta * r * elig[i])`; non-plastic
synapses are copied unchanged.  The counter is the index of the first
synapse of the list. -/
noncomputable def applyRewardSyns (cfg : PlasticityConfig) (elig : ℕ → ℝ) (r : ℝ) :
    List (Syn ℝ) → ℕ → List (Syn ℝ)
  | [], _ => []
  | sy :: rest, i =>
    (if sy.plastic then
      { sy with w := clip cfg.wMin cfg.wMax (sy.w + cfg.eta * r * elig i) }
     else sy) :: applyRewardSyns cfg elig r rest (i + 1)

/-- Embedding of `SNN.apply_reward(r)` (lines 180–194).  The final rebuild of the
`outgoing` dict from the new `_syn_list` is the identity in this
representation (see `PState`). -/
noncomputable def applyReward (r : ℝ) (s : PState) : PState :=
  { s with syns := applyRewardSyns s.cfg s.elig r s.syns 0 }

/-- One externally observable operation on the plasticity state: a
simulation step (with whatever spike list that step produced) or a reward
application. -/
inductive Op where
  | stepAt : ℚ → List ℕ → Op
  | reward : ℝ → Op

/-- Interpret one operation. -/
noncomputable def runOp (s : PState) : Op → PState
  | .stepAt t spikes => stepPlasticity t spikes s
  | .reward r => applyReward r s

/-- Interpret a sequence of operations, oldest first. -/
noncomputable def runOps (s : PState) (ops : List Op) : PState := ops.foldl runOp s

/-- Discriminator: is this operation a simulation step? -/
def Op.isStep : Op → Bool
  | .stepAt _ _ => true
  | .reward _ => false

/-! ## Multi-port I/O coordinator — `core/inout_core.py`, `OutputBinding`
(lines 113–129) and `IOCoordinator` (`bind_output`, `on_output_spike`,
`maybe_emit_actions`; lines 175–239).

Port names are modelled as numeric identifiers.  A bound decoder is
abstracted by its `readout` response function; `on_spike` deliveries to
decoders are returned as explicit call records `(binding index, t, id)`
rather than mutating decoder-internal state, which the coordinator never
inspects. -/

/-- Embedding of `OutputBinding` from `inout_core.py`: a decoder bound to a set of
source neuron ids (`set(source_ids)`), with a readout period and the lazy
`_next_readout_at` schedule. -/
structure OutBinding where
  port : ℕ
  readoutFn : ℚ → Option ℕ
  sourceIds : Finset ℕ
  periodMs : ℚ
  nextReadoutAt : Option ℚ

/-- Embedding of `OutputBinding.schedule_if_needed(t)`: set `_next_readout_at` to
`t + readout_period_ms` if it is still unset. -/
def scheduleIfNeeded (t : ℚ) (ob : OutBinding) : OutBinding :=
  match ob.nextReadoutAt with
  | none => { ob with nextReadoutAt := some (t + ob.periodMs) }
  | some _ => ob

/-- Embedding of `OutputBinding.due(t)`: the schedule is set and `t ≥ _next_readout_at`. -/
def OutBinding.due (ob : OutBinding) (t : ℚ) : Bool :=
  match ob.nextReadoutAt with
  | none => false
  | some nra => decide (nra ≤ t)

/-- Embedding of `OutputBinding.advance()`: push `_next_readout_at` one period forward. -/
def OutBinding.advance (ob : OutBinding) : OutBinding :=
  match ob.nextReadoutAt with
  | none => ob
  | some nra => { ob with nextReadoutAt := some (nra + ob.periodMs) }

/-- The coordinator state: the `_outputs` list and the `_route` dict from
neuron id to the list of listening output-binding indices (total function,
empty list where the dict has no entry).  Input bindings and the
environment handle play no role in the routed-output claims and are
omitted. -/
structure IOCo where
  outputs : List OutBinding
  route : ℕ → List ℕ

/-- A freshly constructed coordinator: no bindings, empty routing table. -/
def emptyIOCo : IOCo := ⟨[], fun _ => []⟩

/-- Embedding of `IOCoordinator.bind_output(port, decoder, source_ids, readout_period_ms)`
(lines 175–191): append a binding whose id set is `set(source_ids)`, then
append its index to `_route[nid]` once per *occurrence* of `nid` in the
`source_ids` sequence. -/
def bindOutput (co : IOCo) (port : ℕ) (fn : ℚ → Option ℕ) (sourceIds : List ℕ)
    (period : ℚ) : IOCo :=
  let ob : OutBinding := ⟨port, fn, sourceIds.toFinset, period, none⟩
  let outputs2 := co.outputs ++ [ob]
  let idx := outputs2.length - 1
  { outputs := outputs2
    route := sourceIds.foldl
      (fun rt nid => fun m => if m = nid then rt m ++ [idx] else rt m) co.route }

/-- The body of the `on_output_spike` routing loop: look up the binding at
the routed index, lazily schedule its readout window, and record the
`decoder.on_spike(t, neuron_id)` call. -/
def spikeFoldStep (t : ℚ) (nid : ℕ) (pr : IOCo × List (ℕ × ℚ × ℕ)) (idx : ℕ) :
    IOCo × List (ℕ × ℚ × ℕ) :=
  match pr.1.outputs.get? idx with
  | some ob =>
    ({ pr.1 with outputs := pr.1.outputs.set idx (scheduleIfNeeded t ob) },
      pr.2 ++ [(idx, t, nid)])
  | none => pr

/-- Embedding of `IOCoordinator.on_output_spike(t, neuron_id)` (lines 217–223): for each
binding index routed from this neuron id, lazily schedule its readout
window and deliver one `decoder.on_spike(t, neuron_id)` call.  The list of
delivered calls `(binding index, t, neuron id)` is returned alongside the
updated coordinator. -/
def onOutputSpike (co : IOCo) (t : ℚ) (nid : ℕ) : IOCo × List (ℕ × ℚ × ℕ) :=
  (co.route nid).foldl (spikeFoldStep t nid) (co, [])

/-- The polling sweep of `IOCoordinator.maybe_emit_actions(t)` (lines
225–239) over the `_outputs` list: each due binding is advanced by one
period and its decoder polled; non-null actions are recorded under the
binding's port.  Returns the updated bindings, the recorded actions, and
the list of `readout` invocations `(binding index, t)`. -/
def pollBindings (t : ℚ) : List OutBinding → ℕ →
    List OutBinding × List (ℕ × ℕ) × List (ℕ × ℚ)
  | [], _ => ([], [], [])
  | ob :: rest, i =>
    let tail := pollBindings t rest (i + 1)
    if ob.due t then
      match ob.readoutFn t with
      | some a => (ob.advance :: tail.1, (ob.port, a) :: tail.2.1, (i, t) :: tail.2.2)
      | none => (ob.advance :: tail.1, tail.2.1, (i, t) :: tail.2.2)
    else (ob :: tail.1, tail.2.1, tail.2.2)

/-- Embedding of `IOCoordinator.maybe_emit_actions(t)`. -/
def maybeEmitActions (co : IOCo) (t : ℚ) : IOCo × List (ℕ × ℕ) × List (ℕ × ℚ) :=
  let r := pollBindings t co.outputs 0
  ({ co with outputs := r.1 }, r.2.1, r.2.2)

/-- Drive the coordinator through a sequence of `maybe_emit_actions` polls
(as the simulation loop of `inout_core.py` does once per tick), collecting
every `readout` invocation. -/
def runPolls (co : IOCo) : List ℚ → IOCo × List (ℕ × ℚ)
  | [] => (co, [])
  | u :: rest =>
    let r := maybeEmitActions co u
    let pr := runPolls r.1 rest
    (pr.1, r.2.2 ++ pr.2)

/-- One `bind_output` request: port, decoder readout behaviour, source-id
sequence, readout period. -/
structure BindSpec where
  port : ℕ
  fn : ℚ → Option ℕ
  ids : List ℕ
  period : ℚ

/-- A coordinator built by a sequence of `bind_output` calls on a fresh
coordinator. -/
def buildCo (specs : List BindSpec) : IOCo :=
  specs.foldl (fun co sp => bindOutput co sp.port sp.fn sp.ids sp.period) emptyIOCo

/-! ## Runtime tick — `core/runtime.py` (`Runtime.tick`, lines 23–48)
composed with the single-port coordinator of `core/interfaces.py`
(`IOCoordinator.encode_observation`, `maybe_emit_action`).

The abstract collaborators (environment, encoder, decoder, goal, network)
are parameters; each call the tick makes to them is recorded as an event,
so the claims about call order and call counts become statements about the
produced event trace.  The environment may be stateful: `observe` returns
an observation together with the successor environment state.
Observations, actions and environment states are numeric tokens. -/

/-- One externally visible call performed during `Runtime.tick`. -/
inductive REv where
  | inject : ℚ → ℕ → ℚ → REv
  | stepNet : ℚ → ℚ → REv
  | outSpike : ℚ → ℕ → REv
  | observeEnv : ℚ → REv
  | readoutDec : ℚ → REv
  | applyAct : ℚ → ℕ → REv
  | goalEval : ℚ → ℕ → ℕ → ℕ → REv
  | rewardApp : ℚ → REv
deriving DecidableEq

/-- The abstract collaborators of the runtime: environment, encoder,
decoder, goal and network, each given by its response behaviour. -/
structure LoopWorld where
  observe : ℚ → ℕ → ℕ × ℕ
  applyAction : ℚ → ℕ → ℕ → ℕ
  encode : ℚ → ℕ → List (ℕ × ℚ)
  readout : ℚ → Option ℕ
  evalGoal : ℚ → ℕ → ℕ → ℕ → ℚ
  stepNet : ℚ → ℚ → List ℕ

/-- Embedding of `IOCoordinator.encode_observation(t)` from `interfaces.py` (lines
69–71): observe the environment, feed the observation to the encoder.
Returns the encoder's `(neuron id, offset)` stream, the successor
environment state, and the recorded `observe` call. -/
def encodeObservation (w : LoopWorld) (t : ℚ) (env : ℕ) :
    List (ℕ × ℚ) × ℕ × List REv :=
  let o := w.observe t env
  (w.encode t o.1, o.2, [REv.observeEnv t])

/-- Embedding of `IOCoordinator.maybe_emit_action(t)` from `interfaces.py` (lines
64–68): poll the decoder; a non-null action is applied to the environment
and returned. -/
def maybeEmitAction (w : LoopWorld) (t : ℚ) (env : ℕ) :
    Option ℕ × ℕ × List REv :=
  match w.readout t with
  | some a => (some a, w.applyAction t a env, [REv.readoutDec t, REv.applyAct t a])
  | none => (none, env, [REv.readoutDec t])

/-- Embedding of `Runtime.tick(t, dt_ms, goal, inject_scale)` from `runtime.py` lines
23–48: encode and inject, step the network, route output spikes, observe
(`obs_before`), poll for an action (applying it to the environment),
observe again (`obs_after`), and finally — only when a goal is supplied
and an action was emitted — evaluate the goal and, on a nonzero reward,
apply it.  Returns `(reward-or-none, spikes)`, the final environment
state, and the event trace. -/
def tick (w : LoopWorld) (goalPresent : Bool) (t dtMs : ℚ) (env : ℕ)
    (injectScale : ℚ) : (Option ℚ × List ℕ) × ℕ × List REv :=
  let enc := encodeObservation w t env
  let injectEvs := enc.1.map (fun no => REv.inject (t + no.2) no.1 injectScale)
  let spikes := w.stepNet t dtMs
  let spikeEvs := spikes.map (fun nid => REv.outSpike t nid)
  let obsB := w.observe t enc.2.1
  let emit := maybeEmitAction w t obsB.2
  let obsA := w.observe t emit.2.1
  let base := enc.2.2 ++ injectEvs ++ [REv.stepNet t dtMs] ++ spikeEvs ++
    [REv.observeEnv t] ++ emit.2.2 ++ [REv.observeEnv t]
  match goalPresent, emit.1 with
  | true, some a =>
    let r := w.evalGoal t obsB.1 a obsA.1
    if r ≠ 0 then
      ((some r, spikes), obsA.2,
        base ++ [REv.goalEval t obsB.1 a obsA.1, REv.rewardApp r])
    else ((none, spikes), obsA.2, base ++ [REv.goalEval t obsB.1 a obsA.1])
  | _, _ => ((none, spikes), obsA.2, base)

/-- Is this event a `goal.evaluate` call? -/
def isGoalEvalEv : REv → Bool
  | REv.goalEval _ _ _ _ => true
  | REv.inject _ _ _ => false
  | REv.stepNet _ _ => false
  | REv.outSpike _ _ => false
  | REv.observeEnv _ => false
  | REv.readoutDec _ => false
  | REv.applyAct _ _ => false
  | REv.rewardApp _ => false

/-- Is this event a `net.apply_reward` call? -/
def isRewardEv : REv → Bool
  | REv.rewardApp _ => true
  | REv.inject _ _ _ => false
  | REv.stepNet _ _ => false
  | REv.outSpike _ _ => false
  | REv.observeEnv _ => false
  | REv.readoutDec _ => false
  | REv.applyAct _ _ => false
  | REv.goalEval _ _ _ _ => false

/-- Number of `goal.evaluate` calls in a trace. -/
def countGoalEvals (evs : List REv) : ℕ := (evs.filter isGoalEvalEv).length

/-- Number of `net.apply_reward` calls in a trace. -/
def countRewards (evs : List REv) : ℕ := (evs.filter isRewardEv).length

/-! ## Helper accessors and lemmas -/

/-- Dictionary lookup in the pending-current table. -/
def findCur (k : ℤ) : Pending → Option ℚ
  | [] => none
  | kc :: rest => if kc.1 = k then some kc.2 else findCur k rest

lemma findCur_eq_none_of_not_mem {k : ℤ} :
    ∀ {p : Pending}, k ∉ p.map Prod.fst → findCur k p = none := by
  intro p
  induction p with
  | nil => intro _; rfl
  | cons kc rest ih =>
    intro h
    simp only [List.map_cons, List.mem_cons] at h
    push_neg at h
    have hne : ¬ kc.1 = k := fun he => h.1 he.symm
    simp only [findCur, if_neg hne]
    exact ih h.2

lemma findCur_addPending (key : ℤ) (cur : ℚ) (k : ℤ) :
    ∀ p : Pending, findCur k (addPending key cur p)
      = if k = key then some ((findCur k p).getD 0 + cur) else findCur k p := by
  intro p
  induction p with
  | nil =>
    by_cases h : k = key
    · subst h; simp [addPending, findCur]
    · simp [addPending, findCur, if_neg (fun he : key = k => h he.symm), if_neg h]
  | cons kc rest ih =>
    by_cases h1 : kc.1 = key
    · simp only [addPending, if_pos h1]
      by_cases h2 : k = key
      · have h3 : kc.1 = k := by rw [h1, h2]
        simp [findCur, if_pos h3, if_pos h2, h1 ▸ h3]
      · have h3 : ¬ kc.1 = k := fun he => h2 (he ▸ h1)
        simp [findCur, if_neg h3, if_neg h2]
    · simp only [addPending, if_neg h1]
      by_cases h3 : kc.1 = k
      · have h2 : ¬ k = key := fun he => h1 (h3.trans he)
        simp [findCur, if_pos h3, if_neg h2]
      · simp only [findCur, if_neg h3, ih]

lemma mem_keys_addPending (key : ℤ) (cur : ℚ) :
    ∀ (p : Pending) (kc : ℤ × ℚ), kc ∈ addPending key cur p →
      kc.1 ∈ p.map Prod.fst ∨ kc.1 = key := by
  intro p
  induction p with
  | nil =>
    intro kc hm
    simp only [addPending, List.mem_singleton] at hm
    subst hm; right; rfl
  | cons kd rest ih =>
    intro kc hm
    by_cases h2 : kd.1 = key
    · simp only [addPending, if_pos h2, List.mem_cons] at hm
      rcases hm with hm | hm
      · subst hm; right; exact h2
      · left
        simp only [List.map_cons, List.mem_cons]
        right
        exact List.mem_map.mpr ⟨kc, hm, rfl⟩
    · simp only [addPending, if_neg h2, List.mem_cons] at hm
      rcases hm with hm | hm
      · subst hm; left; simp
      · rcases ih kc hm with hm2 | hm2
        · left
          simp only [List.map_cons, List.mem_cons]
          right
          exact hm2
        · right; exact hm2

lemma addPending_keys_nodup (key : ℤ) (cur : ℚ) :
    ∀ p : Pending, (p.map Prod.fst).Nodup → ((addPending key cur p).map Prod.fst).Nodup := by
  intro p
  induction p with
  | nil => intro _; simp [addPending]
  | cons kc rest ih =>
    intro h
    simp only [List.map_cons, List.nodup_cons] at h
    by_cases h1 : kc.1 = key
    · simp only [addPending, if_pos h1, List.map_cons, List.nodup_cons]
      exact h
    · simp only [addPending, if_neg h1, List.map_cons, List.nodup_cons]
      refine ⟨?_, ih h.2⟩
      intro hmem
      rcases List.mem_map.mp hmem with ⟨kc2, hkc2, hfst⟩
      rcases mem_keys_addPending key cur rest kc2 hkc2 with hm | hm
      · exact h.1 (hfst ▸ hm)
      · exact h1 (hfst ▸ hm)

lemma encodeKey_div65536 {b : ℤ} {nid : ℕ} (h : nid < 65536) :
    encodeKey b nid / 65536 = b := by
  have h2 : (nid : ℤ) < 65536 := by exact_mod_cast h
  have h3 : (0 : ℤ) ≤ (nid : ℤ) := Int.natCast_nonneg nid
  unfold encodeKey
  omega

lemma encodeKey_mod65536 {b : ℤ} {nid : ℕ} (h : nid < 65536) :
    (encodeKey b nid % 65536).toNat = nid := by
  have h2 : (nid : ℤ) < 65536 := by exact_mod_cast h
  have h3 : (0 : ℤ) ≤ (nid : ℤ) := Int.natCast_nonneg nid
  unfold encodeKey
  omega

lemma eq_encodeKey_of_div_mod {k b : ℤ} {nid : ℕ} (hb : k / 65536 = b)
    (hm : (k % 65536).toNat = nid) : k = encodeKey b nid := by
  unfold encodeKey
  omega

lemma encodeKey_div_ge (b : ℤ) (nid : ℕ) : b ≤ encodeKey b nid / 65536 := by
  have h3 : (0 : ℤ) ≤ (nid : ℤ) := Int.natCast_nonneg nid
  unfold encodeKey
  omega

/-! ## C2 — refractory seal -/

lemma stepNeurons_spikes_ge (t dtMs : ℚ) (iIn : ℕ → ℚ) :
    ∀ (ns : List Neuron) (k j : ℕ), j ∈ (stepNeurons t dtMs iIn ns k).2 → k ≤ j := by
  intro ns
  induction ns with
  | nil => intro k j h; simp [stepNeurons] at h
  | cons nr rest ih =>
    intro k j h
    simp only [stepNeurons] at h
    by_cases hs : (neuronStep t dtMs (iIn k) nr).2 = true
    · rw [if_pos hs] at h
      rcases List.mem_cons.mp h with h1 | h2
      · omega
      · have := ih (k + 1) j h2; omega
    · rw [if_neg hs] at h
      have := ih (k + 1) j h; omega

lemma stepNeurons_mem_spikes (t dtMs : ℚ) (iIn : ℕ → ℚ) :
    ∀ (ns : List Neuron) (k n : ℕ),
      ((k + n) ∈ (stepNeurons t dtMs iIn ns k).2 ↔
        ∃ nr, ns.get? n = some nr ∧ (neuronStep t dtMs (iIn (k + n)) nr).2 = true) := by
  intro ns
  induction ns with
  | nil => intro k n; simp [stepNeurons]
  | cons nr rest ih =>
    intro k n
    cases n with
    | zero =>
      simp only [stepNeurons, Nat.add_zero, List.get?]
      constructor
      · intro h
        by_cases hs : (neuronStep t dtMs (iIn k) nr).2 = true
        · exact ⟨nr, rfl, hs⟩
        · rw [if_neg hs] at h
          have := stepNeurons_spikes_ge t dtMs iIn rest (k + 1) k h
          omega
      · rintro ⟨nr2, hnr, hs⟩
        injection hnr with hnr
        subst hnr
        rw [if_pos hs]
        exact List.mem_cons_self _ _
    | succ m =>
      have hne : k + (m + 1) ≠ k := by omega
      have hidx : k + (m + 1) = (k + 1) + m := by omega
      simp only [stepNeurons, List.get?]
      constructor
      · intro h
        have hmem : (k + (m + 1)) ∈ (stepNeurons t dtMs iIn rest (k + 1)).2 := by
          by_cases hs : (neuronStep t dtMs (iIn k) nr).2 = true
          · rw [if_pos hs] at h
            rcases List.mem_cons.mp h with h1 | h2
            · omega
            · exact h2
          · rw [if_neg hs] at h; exact h
        rw [hidx] at hmem
        rcases (ih (k + 1) m).mp hmem with ⟨nr2, hnr2, hs2⟩
        exact ⟨nr2, hnr2, by rw [hidx]; exact hs2⟩
      · rintro ⟨nr2, hnr2, hs2⟩
        rw [hidx] at hs2
        have hmem := (ih (k + 1) m).mpr ⟨nr2, hnr2, hs2⟩
        rw [← hidx] at hmem
        by_cases hs : (neuronStep t dtMs (iIn k) nr).2 = true
        · rw [if_pos hs]; exact List.mem_cons_of_mem _ hmem
        · rw [if_neg hs]; exact hmem

lemma stepNeurons_get? (t dtMs : ℚ) (iIn : ℕ → ℚ) :
    ∀ (ns : List Neuron) (k n : ℕ),
      (stepNeurons t dtMs iIn ns k).1.get? n
        = (ns.get? n).map (fun nr => (neuronStep t dtMs (iIn (k + n)) nr).1) := by
  intro ns
  induction ns with
  | nil => intro k n; simp [stepNeurons]
  | cons nr rest ih =>
    intro k n
    cases n with
    | zero => simp [stepNeurons]
    | succ m =>
      have hidx : k + (m + 1) = (k + 1) + m := by omega
      simp only [stepNeurons, List.get?]
      rw [ih (k + 1) m, hidx]

/-- C2: on any step at time `t`, a neuron `n` still refractory
(`t < ref_until[n]`) does not appear in the returned spike list, and its
membrane potential equals `v_reset` after the step. -/
theorem refractory_seal (ns : List Neuron) (t dtMs : ℚ) (iIn : ℕ → ℚ) (n : ℕ)
    (nr : Neuron) (hn : ns.get? n = some nr) (href : t < nr.st.refUntil) :
    n ∉ (stepNeurons t dtMs iIn ns 0).2 ∧
      ((stepNeurons t dtMs iIn ns 0).1.get? n).map (fun m => m.st.v)
        = some nr.cfg.vReset := by
  have hstep : neuronStep t dtMs (iIn n) nr
      = ({ nr with st := { nr.st with v := nr.cfg.vReset } }, false) := by
    unfold neuronStep
    rw [if_pos href]
  constructor
  · intro hmem
    have h0 : (0 + n) ∈ (stepNeurons t dtMs iIn ns 0).2 := by
      rw [Nat.zero_add]; exact hmem
    rcases (stepNeurons_mem_spikes t dtMs iIn ns 0 n).mp h0 with ⟨nr2, hnr2, hs⟩
    rw [hn] at hnr2
    injection hnr2 with hnr2
    subst hnr2
    rw [Nat.zero_add, hstep] at hs
    exact Bool.noConfusion hs
  · rw [stepNeurons_get?, hn, Nat.zero_add]
    simp only [Option.map_some', hstep]

/-- A single-neuron input used to instantiate the refractory-seal claim. -/
def exNeuron : Neuron := ⟨{}, { v := 1 / 2, refUntil := 5 }⟩

/-- Witness for `refractory_seal` at a concrete refractory neuron. -/
theorem refractory_seal_witness :
    (0 : ℕ) ∉ (stepNeurons 3 1 (fun _ => 0) [exNeuron] 0).2 ∧
      ((stepNeurons 3 1 (fun _ => 0) [exNeuron] 0).1.get? 0).map (fun m => m.st.v)
        = some exNeuron.cfg.vReset :=
  refractory_seal [exNeuron] 3 1 (fun _ => 0) 0 exNeuron rfl
    (by show (3 : ℚ) < 5; norm_num)

/-! ## C3 — delay monotonicity -/

lemma deliverAt_strict_future (t d : ℚ) :
    pyRound t < deliverAt t d ∧ pyRound (t + d) ≤ deliverAt t d := by
  simp only [deliverAt]
  split_ifs with h <;> omega

lemma findCur_schedFold (t : ℚ) (k : ℤ) (hk : k / 65536 ≤ pyRound t) :
    ∀ (syns : List (Syn ℚ)) (acc : Pending),
      findCur k (syns.foldl
        (fun acc2 s => scheduleCurrent (deliverAt t s.delay) s.post s.w acc2) acc)
        = findCur k acc := by
  intro syns
  induction syns with
  | nil => intro acc; rfl
  | cons s rest ih =>
    intro acc
    rw [List.foldl_cons, ih]
    unfold scheduleCurrent
    rw [findCur_addPending]
    have hne : k ≠ encodeKey (deliverAt t s.delay) s.post := by
      intro he
      have h1 := (deliverAt_strict_future t s.delay).1
      have h2 := encodeKey_div_ge (deliverAt t s.delay) s.post
      rw [← he] at h2
      omega
    rw [if_neg hne]

/-- C3: for a pre-spike in a step at time `t` (bin `b = round(t)`), the
delivery bin of every outgoing synapse with delay `d` is strictly greater
than `b` and at least `round(t + d)` (so a delay rounding to the current
bin is promoted to `b + 1`), and the whole synaptic-propagation pass of the
step leaves every bin `≤ b` of the pending-current table untouched: a spike
at time `t` influences no neuron before bin `b + 1`. -/
theorem delay_monotonicity :
    (∀ t d : ℚ, pyRound t < deliverAt t d ∧ pyRound (t + d) ≤ deliverAt t d ∧
      (pyRound (t + d) ≤ pyRound t → deliverAt t d = pyRound t + 1)) ∧
      ∀ (t : ℚ) (spikes : List ℕ) (outgoing : ℕ → List (Syn ℚ)) (p : Pending)
        (k : ℤ), k / 65536 ≤ pyRound t →
          findCur k (stepPropagation t spikes outgoing p) = findCur k p := by
  constructor
  · intro t d
    refine ⟨(deliverAt_strict_future t d).1, (deliverAt_strict_future t d).2, ?_⟩
    intro h
    simp only [deliverAt]
    rw [if_pos h]
  · intro t spikes outgoing p k hk
    unfold stepPropagation
    induction spikes generalizing p with
    | nil => rfl
    | cons pre rest ih =>
      rw [List.foldl_cons, ih, findCur_schedFold t k hk]

/-- Witness for `delay_monotonicity`, discharging its hypotheses at a
concrete input: with `t = 4.6` and `d = 0.2` both `t` and `t + d` round to
bin `5`, so delivery is promoted to bin `6`; and the propagation pass
leaves the concrete same-bin pending entry untouched. -/
theorem delay_monotonicity_witness :
    (pyRound (23 / 5) < deliverAt (23 / 5) (1 / 5) ∧
      pyRound (23 / 5 + 1 / 5) ≤ deliverAt (23 / 5) (1 / 5) ∧
        deliverAt (23 / 5) (1 / 5) = pyRound (23 / 5) + 1) ∧
      findCur (5 * 65536)
          (stepPropagation (23 / 5) [0] (fun _ => [⟨0, 1, 1, 1 / 5, false⟩])
            [(5 * 65536, 2)])
        = findCur (5 * 65536) [(5 * 65536, 2)] := by
  have h5 : pyRound (23 / 5) = 5 := by
    norm_num [pyRound, Rat.floor]
  have h5b : pyRound (23 / 5 + 1 / 5) = 5 := by
    norm_num [pyRound, Rat.floor]
  refine ⟨⟨(delay_monotonicity.1 (23 / 5) (1 / 5)).1,
    (delay_monotonicity.1 (23 / 5) (1 / 5)).2.1,
    (delay_monotonicity.1 (23 / 5) (1 / 5)).2.2 (by rw [h5, h5b])⟩,
    delay_monotonicity.2 (23 / 5) [0] (fun _ => [⟨0, 1, 1, 1 / 5, false⟩])
      [(5 * 65536, 2)] (5 * 65536) (by norm_num [h5])⟩

/-! ## C10 — exact once-only delivery of scheduled currents -/

lemma stepDrain_input (b : ℤ) {nid : ℕ} (hnid : nid < 65536) :
    ∀ p : Pending, (p.map Prod.fst).Nodup →
      (stepDrain b p).1 nid = (findCur (encodeKey b nid) p).getD 0 := by
  intro p
  induction p with
  | nil => intro _; simp [stepDrain, findCur]
  | cons kc rest ih =>
    intro h
    simp only [List.map_cons, List.nodup_cons] at h
    by_cases hb : kc.1 / 65536 = b
    · by_cases hk : kc.1 = encodeKey b nid
      · have hmod : (kc.1 % 65536).toNat = nid := by
          rw [hk]; exact encodeKey_mod65536 hnid
        have hrest : findCur (encodeKey b nid) rest = none :=
          findCur_eq_none_of_not_mem (by rw [← hk]; exact h.1)
        simp only [stepDrain, if_pos hb, hmod, if_pos rfl, ih h.2, hrest,
          findCur, if_pos hk]
        simp
      · have hmod : ¬ nid = (kc.1 % 65536).toNat := by
          intro he
          exact hk (eq_encodeKey_of_div_mod hb he.symm)
        simp only [stepDrain, if_pos hb, if_neg hmod, ih h.2, findCur, if_neg hk]
    · have hk : ¬ kc.1 = encodeKey b nid := by
        intro he
        exact hb (by rw [he]; exact encodeKey_div65536 hnid)
      simp only [stepDrain, if_neg hb, ih h.2, findCur, if_neg hk]

lemma stepDrain_removed (b : ℤ) {nid : ℕ} (hnid : nid < 65536) :
    ∀ p : Pending, findCur (encodeKey b nid) (stepDrain b p).2 = none := by
  intro p
  induction p with
  | nil => rfl
  | cons kc rest ih =>
    by_cases hb : kc.1 / 65536 = b
    · simp only [stepDrain, if_pos hb]; exact ih
    · have hk : ¬ kc.1 = encodeKey b nid := by
        intro he
        exact hb (by rw [he]; exact encodeKey_div65536 hnid)
      simp only [stepDrain, if_neg hb, findCur, if_neg hk]; exact ih

lemma stepDrain_other_bins (b : ℤ) :
    ∀ p : Pending, ∀ k : ℤ, k / 65536 ≠ b →
      findCur k (stepDrain b p).2 = findCur k p := by
  intro p
  induction p with
  | nil => intro k _; rfl
  | cons kc rest ih =>
    intro k hk
    by_cases hb : kc.1 / 65536 = b
    · have hne : ¬ kc.1 = k := by
        intro he; rw [he] at hb; exact hk hb
      simp only [stepDrain, if_pos hb, ih k hk, findCur, if_neg hne]
    · simp only [stepDrain, if_neg hb, findCur]
      by_cases he : kc.1 = k
      · rw [if_pos he, if_pos he]
      · rw [if_neg he, if_neg he, ih k hk]

/-- C10: when all neuron ids are below `2 ^ 16`, the pending-current table
delivers each scheduled current exactly once.  Scheduling at `(b, nid)`
accumulates into exactly the packed key of `(b, nid)` and touches no other
key; the drain of bin `b` hands neuron `nid` exactly the accumulated amount
of that key, removes the key, and leaves every other bin intact; and a
current injected by `inject_spike` at time `t` is handed over in full by
the drain of bin `round(t)`. -/
theorem scheduler_exact_delivery (p : Pending) (b : ℤ) (nid : ℕ) (cur : ℚ) (t : ℚ)
    (hnid : nid < 65536) (hkeys : (p.map Prod.fst).Nodup) :
    (findCur (encodeKey b nid) (scheduleCurrent b nid cur p)
        = some ((findCur (encodeKey b nid) p).getD 0 + cur))
    ∧ (∀ k, k ≠ encodeKey b nid → findCur k (scheduleCurrent b nid cur p) = findCur k p)
    ∧ ((stepDrain b p).1 nid = (findCur (encodeKey b nid) p).getD 0)
    ∧ (findCur (encodeKey b nid) (stepDrain b p).2 = none)
    ∧ (∀ k, k / 65536 ≠ b → findCur k (stepDrain b p).2 = findCur k p)
    ∧ ((stepDrain (pyRound t) (injectSpike t nid cur p)).1 nid
        = (findCur (encodeKey (pyRound t) nid) p).getD 0 + cur) := by
  refine ⟨?_, ?_, stepDrain_input b hnid p hkeys, stepDrain_removed b hnid p,
    stepDrain_other_bins b p, ?_⟩
  · unfold scheduleCurrent
    rw [findCur_addPending, if_pos rfl]
  · intro k hk
    unfold scheduleCurrent
    rw [findCur_addPending, if_neg hk]
  · have hnd : ((injectSpike t nid cur p).map Prod.fst).Nodup :=
      addPending_keys_nodup _ _ p hkeys
    rw [stepDrain_input (pyRound t) hnid _ hnd]
    unfold injectSpike
    rw [findCur_addPending, if_pos rfl]
    simp

/-- Witness for `scheduler_exact_delivery` on a one-entry table. -/
theorem scheduler_exact_delivery_witness :
    ((stepDrain 2 [(encodeKey 2 1, 3)]).1 1
        = (findCur (encodeKey 2 1) [(encodeKey 2 1, 3)]).getD 0)
    ∧ (findCur (encodeKey 2 1) (stepDrain 2 [(encodeKey 2 1, 3)]).2 = none) := by
  have h := scheduler_exact_delivery [(encodeKey 2 1, 3)] 2 1 7 0
    (by norm_num) (by simp)
  exact ⟨h.2.2.1, h.2.2.2.1⟩

/-! ## Plasticity lemmas shared by the weight and trace claims -/

lemma foldl_syns_cfg {β : Type} (f : PState → β → PState)
    (hf : ∀ (a : PState) (x : β), (f a x).syns = a.syns ∧ (f a x).cfg = a.cfg) :
    ∀ (l : List β) (s : PState),
      (l.foldl f s).syns = s.syns ∧ (l.foldl f s).cfg = s.cfg := by
  intro l
  induction l with
  | nil => intro s; exact ⟨rfl, rfl⟩
  | cons x xs ih =>
    intro s
    rw [List.foldl_cons]
    have h1 := ih (f s x)
    have h2 := hf s x
    exact ⟨h1.1.trans h2.1, h1.2.trans h2.2⟩

lemma decayTraces_syns_cfg (t : ℚ) (s : PState) :
    (decayTraces t s).syns = s.syns ∧ (decayTraces t s).cfg = s.cfg := by
  unfold decayTraces
  split_ifs <;> exact ⟨rfl, rfl⟩

lemma preBumps_syns_cfg (spikes : List ℕ) (s : PState) :
    (preBumps spikes s).syns = s.syns ∧ (preBumps spikes s).cfg = s.cfg := by
  unfold preBumps
  refine foldl_syns_cfg _ ?_ spikes s
  intro a pre
  refine foldl_syns_cfg _ ?_ (outgoingIdx a.syns pre) a
  intro a2 idx
  cases h : a2.syns.get? idx with
  | none => simp [h]
  | some sy =>
    simp only [h]
    split_ifs <;> exact ⟨rfl, rfl⟩

lemma postBumps_syns_cfg (spikes : List ℕ) (s : PState) :
    (postBumps spikes s).syns = s.syns ∧ (postBumps spikes s).cfg = s.cfg := by
  unfold postBumps
  refine foldl_syns_cfg _ ?_ spikes s
  intro a post
  refine foldl_syns_cfg _ ?_ (List.range a.syns.length) a
  intro a2 idx
  cases h : a2.syns.get? idx with
  | none => simp [h]
  | some sy =>
    simp only [h]
    split_ifs <;> exact ⟨rfl, rfl⟩

lemma stepPlasticity_syns_cfg (t : ℚ) (spikes : List ℕ) (s : PState) :
    (stepPlasticity t spikes s).syns = s.syns ∧
      (stepPlasticity t spikes s).cfg = s.cfg := by
  unfold stepPlasticity
  have h1 := decayTraces_syns_cfg t s
  have h2 := preBumps_syns_cfg spikes (decayTraces t s)
  have h3 := postBumps_syns_cfg spikes (preBumps spikes (decayTraces t s))
  exact ⟨(h3.1.trans h2.1).trans h1.1, (h3.2.trans h2.2).trans h1.2⟩

lemma runOps_cfg : ∀ (ops : List Op) (s : PState), (runOps s ops).cfg = s.cfg := by
  intro ops
  induction ops with
  | nil => intro s; rfl
  | cons op rest ih =>
    intro s
    show (runOps (runOp s op) rest).cfg = s.cfg
    rw [ih]
    cases op with
    | stepAt t spikes => exact (stepPlasticity_syns_cfg t spikes s).2
    | reward r => rfl

lemma runOps_syns_of_steps :
    ∀ (ops : List Op) (s : PState), (∀ op ∈ ops, op.isStep = true) →
      (runOps s ops).syns = s.syns := by
  intro ops
  induction ops with
  | nil => intro s _; rfl
  | cons op rest ih =>
    intro s h
    show (runOps (runOp s op) rest).syns = s.syns
    rw [ih _ (fun o ho => h o (List.mem_cons_of_mem _ ho))]
    cases op with
    | stepAt t spikes => exact (stepPlasticity_syns_cfg t spikes s).1
    | reward r =>
      have := h _ (List.mem_cons_self _ _)
      simp [Op.isStep] at this

lemma applyRewardSyns_get? (cfg : PlasticityConfig) (elig : ℕ → ℝ) (r : ℝ) :
    ∀ (syns : List (Syn ℝ)) (k i : ℕ),
      (applyRewardSyns cfg elig r syns k).get? i
        = (syns.get? i).map (fun sy =>
            if sy.plastic then
              { sy with w := clip cfg.wMin cfg.wMax (sy.w + cfg.eta * r * elig (k + i)) }
            else sy) := by
  intro syns
  induction syns with
  | nil => intro k i; simp [applyRewardSyns]
  | cons sy rest ih =>
    intro k i
    cases i with
    | zero => simp [applyRewardSyns]
    | succ m =>
      have hidx : k + (m + 1) = (k + 1) + m := by omega
      simp only [applyRewardSyns, List.get?]
      rw [ih (k + 1) m, hidx]

lemma clip_bounds (lo hi x : ℝ) (h : lo ≤ hi) :
    lo ≤ clip lo hi x ∧ clip lo hi x ≤ hi :=
  ⟨le_max_left _ _, max_le h (min_le_left _ _)⟩

/-! ## C4 — weight clipping -/

/-- C4: after any operation sequence that ends with an `apply_reward`
followed only by simulation steps — that is, after any sequence of
`apply_reward` calls with arbitrary rewards and arbitrarily interleaved
steps — every plastic synapse weight lies in `[w_min, w_max]` (the
configured bounds being a valid interval). -/
theorem weight_clipping (s : PState) (preOps : List Op) (r : ℝ) (postOps : List Op)
    (hw : s.cfg.wMin ≤ s.cfg.wMax) (hpost : ∀ op ∈ postOps, op.isStep = true)
    (i : ℕ) (sy : Syn ℝ)
    (hget : (runOps (applyReward r (runOps s preOps)) postOps).syns.get? i = some sy)
    (hpl : sy.plastic = true) :
    s.cfg.wMin ≤ sy.w ∧ sy.w ≤ s.cfg.wMax := by
  rw [runOps_syns_of_steps postOps _ hpost] at hget
  have hcfg1 : (runOps s preOps).cfg = s.cfg := runOps_cfg preOps s
  unfold applyReward at hget
  rw [applyRewardSyns_get?, hcfg1] at hget
  rcases Option.map_eq_some'.mp hget with ⟨sy0, hsy0, heq⟩
  by_cases hp0 : sy0.plastic
  · rw [if_pos hp0] at heq
    rw [← heq]
    exact clip_bounds s.cfg.wMin s.cfg.wMax
      (sy0.w + s.cfg.eta * r * (runOps s preOps).elig (0 + i)) hw
  · rw [if_neg hp0] at heq
    rw [← heq] at hpl
    exact absurd hpl hp0

/-- A plastic synapse used by several concrete instantiations. -/
def exPlasticSyn : Syn ℝ := ⟨0, 1, 0, 0, true⟩

/-- A one-synapse plastic network with zeroed traces, default config. -/
def exPState : PState := ⟨[exPlasticSyn], fun _ => 0, fun _ => 0, fun _ => 0, 0, {}⟩

/-- The synapse produced by `apply_reward(1)` on `exPState`. -/
noncomputable def exSynAfter : Syn ℝ :=
  { exPlasticSyn with
    w := clip exPState.cfg.wMin exPState.cfg.wMax
      (exPlasticSyn.w + exPState.cfg.eta * 1 * exPState.elig 0) }

/-- Witness for `weight_clipping` on `exPState` with reward `1`. -/
theorem weight_clipping_witness :
    exPState.cfg.wMin ≤ exSynAfter.w ∧ exSynAfter.w ≤ exPState.cfg.wMax :=
  weight_clipping exPState [] 1 []
    (by change ((-1 : ℝ)) ≤ 1; norm_num) (by simp) 0 exSynAfter rfl rfl

/-! ## C5 — trace decay (corrected: the decay base is the literal
`2.718281828`, not `e`) -/

/-- C5 (amended): between two consecutive steps separated by
`Δt = t - t_last`, a step without spikes multiplies each plastic
synapse's pre- and post-trace by exactly `2.718281828 ^ (-Δt/tau_trace)`
and its eligibility by exactly `2.718281828 ^ (-Δt/tau_elig)` — the
base being the source's literal approximation of `e`. -/
theorem trace_decay_factor (s : PState) (t : ℚ) (idx : ℕ) (sy : Syn ℝ)
    (hget : s.syns.get? idx = some sy) (hpl : sy.plastic = true) :
    (stepPlasticity t [] s).preTr idx
        = s.preTr idx * decayFactor (t - s.tLast) s.cfg.tauTrace
    ∧ (stepPlasticity t [] s).postTr idx
        = s.postTr idx * decayFactor (t - s.tLast) s.cfg.tauTrace
    ∧ (stepPlasticity t [] s).elig idx
        = s.elig idx * decayFactor (t - s.tLast) s.cfg.tauElig := by
  have hne : s.syns.isEmpty = false := by
    cases hs : s.syns with
    | nil => rw [hs] at hget; simp [List.get?] at hget
    | cons a l => rfl
  have hstep : stepPlasticity t [] s = decayTraces t s := rfl
  rw [hstep]
  unfold decayTraces
  rw [hne]
  simp only [Bool.false_eq_true, if_false, hget, hpl]
  exact ⟨rfl, rfl, rfl⟩

/-- A one-synapse plastic network with unit traces, `t_last = 0`. -/
def exDecayPState : PState := ⟨[exPlasticSyn], fun _ => 1, fun _ => 1, fun _ => 1, 0, {}⟩

/-- Witness for `trace_decay_factor` at `t = 100` on `exDecayPState`. -/
theorem trace_decay_factor_witness :
    (stepPlasticity 100 [] exDecayPState).preTr 0
        = exDecayPState.preTr 0
          * decayFactor (100 - exDecayPState.tLast) exDecayPState.cfg.tauTrace
    ∧ (stepPlasticity 100 [] exDecayPState).postTr 0
        = exDecayPState.postTr 0
          * decayFactor (100 - exDecayPState.tLast) exDecayPState.cfg.tauTrace
    ∧ (stepPlasticity 100 [] exDecayPState).elig 0
        = exDecayPState.elig 0
          * decayFactor (100 - exDecayPState.tLast) exDecayPState.cfg.tauElig :=
  trace_decay_factor exDecayPState 100 0 exPlasticSyn rfl rfl

/-- C5 (counterexample): on a unit pre-trace with `Δt = tau_trace = 200`,
the step multiplies the trace by `2.718281828⁻¹`, which is *not*
`exp(-Δt/tau_trace) = exp(-1)`: the source's base `2.718281828` differs
from `e`.  So the claim "multiplied by exactly `exp(-Δt/tau_trace_ms)`"
is false of the code. -/
theorem trace_decay_not_exp :
    exDecayPState.preTr 0 = 1 ∧
      (stepPlasticity 200 [] exDecayPState).preTr 0
        ≠ exDecayPState.preTr 0 *
          Real.exp (-(((200 : ℚ) - exDecayPState.tLast : ℚ) : ℝ)
            / ((exDecayPState.cfg.tauTrace : ℚ) : ℝ)) := by
  refine ⟨rfl, ?_⟩
  have hL : (stepPlasticity 200 [] exDecayPState).preTr 0
      = (2.718281828 : ℝ) ^ ((-1 : ℝ)) := by
    show (decayTraces 200 exDecayPState).preTr 0 = _
    unfold decayTraces
    norm_num [exDecayPState, exPlasticSyn, decayFactor]
  have hR : exDecayPState.preTr 0 *
      Real.exp (-(((200 : ℚ) - exDecayPState.tLast : ℚ) : ℝ)
        / ((exDecayPState.cfg.tauTrace : ℚ) : ℝ)) = Real.exp (-1) := by
    norm_num [exDecayPState]
  have hL2 : (2.718281828 : ℝ) ^ ((-1 : ℝ)) = (2.718281828 : ℝ)⁻¹ := by
    rw [show ((-1 : ℝ)) = ((-1 : ℤ) : ℝ) by norm_num, Real.rpow_intCast, zpow_neg_one]
  rw [hL, hL2, hR, Real.exp_neg]
  intro heq
  have hbe : (2.718281828 : ℝ) = Real.exp 1 := inv_inj.mp heq
  have hgt := Real.exp_one_gt_d9
  rw [← hbe] at hgt
  norm_num at hgt

/-! ## C9 — negative time deltas are not rejected -/

/-- A one-synapse plastic network whose last-decay timestamp is `1`. -/
def exNegDtPState : PState := ⟨[exPlasticSyn], fun _ => 1, fun _ => 1, fun _ => 1, 1, {}⟩

/-- C9: a step at `t = 0` after `t_last = 1` — a negative time delta — is
not rejected: `SNN.step` has no check and simply applies the decay with
`Δt = -1`, so the "decay" factor is `2.718281828 ^ (1/200) > 1` and the
traces grow.  The specification requires such ticks to be rejected. -/
theorem negative_dt_processed :
    (stepPlasticity 0 [] exNegDtPState).preTr 0
        = (2.718281828 : ℝ) ^ ((1 : ℝ) / 200)
    ∧ 1 < (stepPlasticity 0 [] exNegDtPState).preTr 0 := by
  have hL : (stepPlasticity 0 [] exNegDtPState).preTr 0
      = (2.718281828 : ℝ) ^ ((1 : ℝ) / 200) := by
    show (decayTraces 0 exNegDtPState).preTr 0 = _
    unfold decayTraces
    norm_num [exNegDtPState, exPlasticSyn, decayFactor]
  refine ⟨hL, ?_⟩
  rw [hL]
  rw [Real.one_lt_rpow_iff_of_pos (by norm_num)]
  left
  norm_num

/-! ## C8 — zero reward (corrected: weights already out of range are
clipped even by a zero reward) -/

lemma applyRewardSyns_zero (cfg : PlasticityConfig) (elig : ℕ → ℝ) :
    ∀ (syns : List (Syn ℝ)) (k : ℕ),
      (∀ sy ∈ syns, sy.plastic = true → cfg.wMin ≤ sy.w ∧ sy.w ≤ cfg.wMax) →
        applyRewardSyns cfg elig 0 syns k = syns := by
  intro syns
  induction syns with
  | nil => intro k _; rfl
  | cons sy rest ih =>
    intro k h
    simp only [applyRewardSyns]
    rw [ih (k + 1) (fun sy2 h2 => h sy2 (List.mem_cons_of_mem _ h2))]
    by_cases hp : sy.plastic
    · rw [if_pos hp]
      have hb := h sy (List.mem_cons_self _ _) hp
      have hz : sy.w + cfg.eta * 0 * elig k = sy.w := by ring
      rw [hz]
      have hc : clip cfg.wMin cfg.wMax sy.w = sy.w := by
        unfold clip
        rw [min_eq_right hb.2, max_eq_right hb.1]
      rw [hc]
    · rw [if_neg hp]

/-- C8 (amended): `apply_reward(0.0)` leaves every synapse weight
unchanged *provided* every plastic weight already lies within
`[w_min, w_max]` (as is the case after any earlier reward update); and
non-plastic synapses are never touched by `apply_reward`, whatever the
reward. -/
theorem zero_reward_idempotence (s : PState) (r : ℝ)
    (hin : ∀ sy ∈ s.syns, sy.plastic = true → s.cfg.wMin ≤ sy.w ∧ sy.w ≤ s.cfg.wMax) :
    (applyReward 0 s).syns = s.syns
    ∧ (∀ i sy, s.syns.get? i = some sy → sy.plastic = false →
        (applyReward r s).syns.get? i = some sy) := by
  constructor
  · show applyRewardSyns s.cfg s.elig 0 s.syns 0 = s.syns
    exact applyRewardSyns_zero s.cfg s.elig s.syns 0 hin
  · intro i sy hget hpl
    show (applyRewardSyns s.cfg s.elig r s.syns 0).get? i = some sy
    rw [applyRewardSyns_get?, hget]
    simp only [Option.map_some']
    rw [if_neg (by rw [hpl]; exact Bool.false_ne_true)]

/-- A one-synapse plastic network whose weight `1/2` is inside the
configured `[-1, 1]`. -/
noncomputable def exBoundedPState : PState :=
  ⟨[⟨0, 1, (1 : ℝ) / 2, 0, true⟩], fun _ => 0, fun _ => 0, fun _ => 0, 0, {}⟩

/-- Witness for `zero_reward_idempotence` on an in-range network. -/
theorem zero_reward_idempotence_witness :
    (applyReward 0 exBoundedPState).syns = exBoundedPState.syns :=
  (zero_reward_idempotence exBoundedPState 3
    (by
      intro sy h hp
      simp only [exBoundedPState, List.mem_singleton] at h
      subst h
      constructor
      · change ((-1 : ℝ)) ≤ 1 / 2; norm_num
      · change ((1 : ℝ) / 2) ≤ 1; norm_num)).1

/-- A one-synapse plastic network whose weight `5` lies outside
`[w_min, w_max] = [-1, 1]`. -/
def exOutOfRangePState : PState :=
  ⟨[⟨0, 1, (5 : ℝ), 0, true⟩], fun _ => 0, fun _ => 0, fun _ => 0, 0, {}⟩

/-- C8 (counterexample): on a network whose plastic synapse has weight `5`
(outside `[-1, 1]`), `apply_reward(0.0)` changes the weight — it clips it
to `1` — so zero reward does not leave all weights unchanged on every
network state. -/
theorem zero_reward_counterexample :
    (applyReward 0 exOutOfRangePState).syns.map Syn.w
      ≠ exOutOfRangePState.syns.map Syn.w := by
  have h1 : (applyReward 0 exOutOfRangePState).syns.map Syn.w
      = [clip (-1) 1 (5 + 0.002 * 0 * 0)] := rfl
  have h2 : clip (-1) 1 (5 + 0.002 * 0 * 0) = 1 := by
    unfold clip
    norm_num
  have h3 : exOutOfRangePState.syns.map Syn.w = [(5 : ℝ)] := rfl
  rw [h1, h2, h3]
  intro h
  injection h with h5 h6
  norm_num at h5

/-! ## C7 — routing completeness -/

lemma routeFold (j : ℕ) :
    ∀ (ids : List ℕ) (rt : ℕ → List ℕ) (m : ℕ),
      (ids.foldl (fun rt2 nid => fun m2 => if m2 = nid then rt2 m2 ++ [j] else rt2 m2) rt) m
        = rt m ++ List.replicate (ids.count m) j := by
  intro ids
  induction ids with
  | nil => intro rt m; simp
  | cons a rest ih =>
    intro rt m
    rw [List.foldl_cons, ih]
    by_cases hm : m = a
    · subst hm
      rw [if_pos rfl, List.count_cons_self, List.append_assoc, List.singleton_append,
        ← List.replicate_succ]
    · rw [if_neg hm, List.count_cons_of_ne hm]

/-- Integrity of the routing table with respect to the bindings: a binding
listens to a neuron id exactly once when the id is in its source set, and
every routed index is a valid binding index. -/
def RouteInv (co : IOCo) : Prop :=
  (∀ (idx : ℕ) (ob : OutBinding), co.outputs.get? idx = some ob →
    ∀ nid, (co.route nid).count idx = if nid ∈ ob.sourceIds then 1 else 0)
  ∧ ∀ (nid idx : ℕ), idx ∈ co.route nid → idx < co.outputs.length

lemma routeInv_empty : RouteInv emptyIOCo := by
  constructor
  · intro idx ob h
    simp [emptyIOCo, List.get?] at h
  · intro nid idx h
    simp [emptyIOCo] at h

lemma bindOutput_route (co : IOCo) (port : ℕ) (fn : ℚ → Option ℕ) (ids : List ℕ)
    (period : ℚ) (m : ℕ) :
    (bindOutput co port fn ids period).route m
      = co.route m ++ List.replicate (ids.count m) co.outputs.length := by
  show (ids.foldl _ co.route) m = _
  rw [routeFold]
  congr 2
  simp [bindOutput]

lemma routeInv_bind (co : IOCo) (port : ℕ) (fn : ℚ → Option ℕ) (ids : List ℕ)
    (period : ℚ) (hnd : ids.Nodup) (h : RouteInv co) :
    RouteInv (bindOutput co port fn ids period) := by
  have hroute : ∀ m, (bindOutput co port fn ids period).route m
      = co.route m ++ List.replicate (ids.count m) co.outputs.length :=
    bindOutput_route co port fn ids period
  have houts : (bindOutput co port fn ids period).outputs
      = co.outputs ++ [⟨port, fn, ids.toFinset, period, none⟩] := rfl
  have hcond : ∀ nid : ℕ,
      (nid ∈ (⟨port, fn, ids.toFinset, period, none⟩ : OutBinding).sourceIds) ↔ nid ∈ ids := by
    intro nid
    exact List.mem_toFinset
  constructor
  · intro idx ob hget nid
    rw [hroute, List.count_append]
    rw [houts] at hget
    rcases lt_trichotomy idx co.outputs.length with hlt | heq | hgt
    · rw [List.get?_append hlt] at hget
      have hrep : (List.replicate (ids.count nid) co.outputs.length).count idx = 0 := by
        apply List.count_eq_zero.mpr
        intro hm
        have := List.eq_of_mem_replicate hm
        omega
      rw [hrep, Nat.add_zero]
      exact h.1 idx ob hget nid
    · subst heq
      rw [List.get?_concat_length] at hget
      injection hget with hget
      subst hget
      have hzero : (co.route nid).count co.outputs.length = 0 :=
        List.count_eq_zero.mpr (fun hm => lt_irrefl _ (h.2 nid _ hm))
      rw [hzero, Nat.zero_add, List.count_replicate_self]
      by_cases hmem : nid ∈ ids
      · rw [List.count_eq_one_of_mem hnd hmem, if_pos ((hcond nid).mpr hmem)]
      · rw [List.count_eq_zero_of_not_mem hmem,
          if_neg (fun hc => hmem ((hcond nid).mp hc))]
    · exfalso
      have hnone : (co.outputs ++ [(⟨port, fn, ids.toFinset, period, none⟩ : OutBinding)]).get? idx
          = none := by
        apply List.get?_eq_none.mpr
        simp only [List.length_append, List.length_singleton]
        omega
      rw [hnone] at hget
      exact Option.noConfusion hget
  · intro nid idx hm
    rw [hroute] at hm
    rw [houts, List.length_append, List.length_singleton]
    rcases List.mem_append.mp hm with hm | hm
    · have := h.2 nid idx hm; omega
    · have := List.eq_of_mem_replicate hm; omega

lemma routeInv_buildCo :
    ∀ (specs : List BindSpec) (co : IOCo), RouteInv co →
      (∀ sp ∈ specs, sp.ids.Nodup) →
      RouteInv (specs.foldl
        (fun co2 sp => bindOutput co2 sp.port sp.fn sp.ids sp.period) co) := by
  intro specs
  induction specs with
  | nil => intro co h _; exact h
  | cons sp rest ih =>
    intro co h hnd
    rw [List.foldl_cons]
    exact ih _ (routeInv_bind co sp.port sp.fn sp.ids sp.period
        (hnd sp (List.mem_cons_self _ _)) h)
      (fun sp2 h2 => hnd sp2 (List.mem_cons_of_mem _ h2))

lemma onOutputSpike_calls_aux (t : ℚ) (nid : ℕ) :
    ∀ (l : List ℕ) (pr : IOCo × List (ℕ × ℚ × ℕ)),
      (∀ idx ∈ l, idx < pr.1.outputs.length) →
      (l.foldl (spikeFoldStep t nid) pr).2
        = pr.2 ++ l.map (fun idx => (idx, t, nid)) := by
  intro l
  induction l with
  | nil => intro pr _; simp
  | cons idx rest ih =>
    intro pr hb
    have hlt : idx < pr.1.outputs.length := hb idx (List.mem_cons_self _ _)
    have hget : pr.1.outputs.get? idx = some (pr.1.outputs.get ⟨idx, hlt⟩) :=
      List.get?_eq_get hlt
    rw [List.foldl_cons]
    have hstep : spikeFoldStep t nid pr idx
        = ({ pr.1 with
              outputs := pr.1.outputs.set idx
                (scheduleIfNeeded t (pr.1.outputs.get ⟨idx, hlt⟩)) },
            pr.2 ++ [(idx, t, nid)]) := by
      unfold spikeFoldStep
      rw [hget]
    rw [hstep]
    rw [ih _ (by
      intro j hj
      simp only [List.length_set]
      exact hb j (List.mem_cons_of_mem _ hj))]
    simp

lemma onOutputSpike_calls (co : IOCo) (t : ℚ) (nid : ℕ)
    (hb : ∀ idx ∈ co.route nid, idx < co.outputs.length) :
    (onOutputSpike co t nid).2 = (co.route nid).map (fun idx => (idx, t, nid)) := by
  unfold onOutputSpike
  rw [onOutputSpike_calls_aux t nid (co.route nid) (co, []) hb]
  simp

lemma count_map_calls (t : ℚ) (nid idx : ℕ) :
    ∀ l : List ℕ, ((l.map (fun i => (i, t, nid))).count (idx, t, nid)) = l.count idx := by
  intro l
  induction l with
  | nil => rfl
  | cons a rest ih =>
    simp only [List.map_cons, List.count_cons, ih, beq_iff_eq, Prod.mk.injEq]
    by_cases ha : a = idx
    · simp [ha]
    · simp [ha]

/-- C7 (amended): for a coordinator built by `bind_output` calls whose
source-id sequences are duplicate-free, `on_output_spike(t, id)` delivers
exactly one `decoder.on_spike(t, id)` call to every binding whose
`source_ids` set contains `id`, and none to any other binding; every
delivered call carries exactly `(t, id)`.  (With a duplicated id in one
`bind_output` sequence the code delivers one call per occurrence, see the
counterexample.) -/
theorem routing_completeness (specs : List BindSpec)
    (hnd : ∀ sp ∈ specs, sp.ids.Nodup) (t : ℚ) (nid idx : ℕ) (ob : OutBinding)
    (hob : (buildCo specs).outputs.get? idx = some ob) :
    ((onOutputSpike (buildCo specs) t nid).2.count (idx, t, nid)
        = if nid ∈ ob.sourceIds then 1 else 0)
    ∧ ∀ c ∈ (onOutputSpike (buildCo specs) t nid).2, c.2.1 = t ∧ c.2.2 = nid := by
  have hinv : RouteInv (buildCo specs) :=
    routeInv_buildCo specs emptyIOCo routeInv_empty hnd
  have hcalls := onOutputSpike_calls (buildCo specs) t nid
    (fun idx2 h2 => hinv.2 nid idx2 h2)
  constructor
  · rw [hcalls, count_map_calls]
    exact hinv.1 idx ob hob nid
  · intro c hc
    rw [hcalls] at hc
    rcases List.mem_map.mp hc with ⟨i, _, hi⟩
    rw [← hi]
    exact ⟨rfl, rfl⟩

/-- A single output binding listening to neuron ids 4 and 5. -/
def exSpec : BindSpec := ⟨1, fun _ => none, [4, 5], 7⟩

/-- The binding that `bind_output` constructs from `exSpec`. -/
def exOb : OutBinding := ⟨1, fun _ => none, ([4, 5] : List ℕ).toFinset, 7, none⟩

/-- Witness for `routing_completeness`: a spike from neuron 5 reaches the
single binding exactly once. -/
theorem routing_completeness_witness :
    ((onOutputSpike (buildCo [exSpec]) 2 5).2.count (0, 2, 5)
        = if 5 ∈ exOb.sourceIds then 1 else 0)
    ∧ ∀ c ∈ (onOutputSpike (buildCo [exSpec]) 2 5).2, c.2.1 = 2 ∧ c.2.2 = 5 :=
  routing_completeness [exSpec]
    (by
      intro sp h
      rw [List.mem_singleton] at h
      subst h
      show ([4, 5] : List ℕ).Nodup
      decide)
    2 5 0 exOb rfl

/-- The binding that `bind_output` constructs from the duplicated
source-id sequence `[5, 5]`. -/
def dupOb : OutBinding := ⟨1, fun _ => none, ([5, 5] : List ℕ).toFinset, 10, none⟩

/-- C7 (counterexample): binding a decoder with the source-id sequence
`[5, 5]` routes the binding index twice, so one output spike from neuron 5
delivers *two* `on_spike` calls to a binding whose `source_ids` set
contains 5 — not exactly one. -/
theorem routing_duplicate_counterexample :
    (buildCo [⟨1, fun _ => none, [5, 5], 10⟩]).outputs.get? 0 = some dupOb
    ∧ 5 ∈ dupOb.sourceIds
    ∧ ((onOutputSpike (buildCo [⟨1, fun _ => none, [5, 5], 10⟩]) 0 5).2.count
        ((0 : ℕ), (0 : ℚ), (5 : ℕ))) = 2 := by
  refine ⟨rfl, by decide, ?_⟩
  have hroute : (buildCo [⟨1, fun _ => none, [5, 5], 10⟩]).route 5 = [0, 0] := by
    have hb : buildCo [⟨1, (fun _ => none : ℚ → Option ℕ), [5, 5], 10⟩]
        = bindOutput emptyIOCo 1 (fun _ => none) [5, 5] 10 := rfl
    rw [hb, bindOutput_route]
    simp [emptyIOCo, List.count_cons]
  have hcalls := onOutputSpike_calls (buildCo [⟨1, fun _ => none, [5, 5], 10⟩]) 0 5
    (by
      intro idx h
      rw [hroute] at h
      rcases List.mem_cons.mp h with h | h
      · subst h; show 0 < 1; omega
      · rw [List.mem_singleton] at h; subst h; show 0 < 1; omega)
  rw [hcalls, count_map_calls, hroute]
  rfl

/-! ## C6 — readout cadence -/

/-- The `k`-th scheduled readout time of a binding whose first routed
spike arrived at `t0`: `t0 + (k + 1) · period`. -/
def nextTime (t0 p : ℚ) (k : ℕ) : ℚ := t0 + ((k : ℚ) + 1) * p

/-- The polling times `nextTime k, nextTime (k+1), …` (`n` of them). -/
def latticeFrom (t0 p : ℚ) (k n : ℕ) : List ℚ :=
  (List.range n).map (fun j => nextTime t0 p (k + j))

lemma maybeEmit_single_not_due (co : IOCo) (ob : OutBinding) (u : ℚ)
    (h : co.outputs = [ob]) (hd : ob.due u = false) :
    (maybeEmitActions co u).1.outputs = [ob] ∧ (maybeEmitActions co u).2.2 = [] := by
  unfold maybeEmitActions
  rw [h]
  simp [pollBindings, hd]

lemma maybeEmit_single_due (co : IOCo) (ob : OutBinding) (u : ℚ)
    (h : co.outputs = [ob]) (hd : ob.due u = true) :
    (maybeEmitActions co u).1.outputs = [ob.advance]
      ∧ (maybeEmitActions co u).2.2 = [(0, u)] := by
  unfold maybeEmitActions
  rw [h]
  rcases hr : ob.readoutFn u with _ | a <;> simp [pollBindings, hd, hr]

lemma nextTime_succ (t0 p : ℚ) (k : ℕ) : nextTime t0 p k + p = nextTime t0 p (k + 1) := by
  unfold nextTime
  push_cast
  ring

lemma latticeFrom_succ (t0 p : ℚ) (k n : ℕ) :
    latticeFrom t0 p k (n + 1) = nextTime t0 p k :: latticeFrom t0 p (k + 1) n := by
  unfold latticeFrom
  rw [List.range_succ_eq_map, List.map_cons, Nat.add_zero, List.map_map]
  congr 1
  apply List.map_congr_left
  intro j _
  show nextTime t0 p (k + (j + 1)) = nextTime t0 p ((k + 1) + j)
  rw [show k + (j + 1) = (k + 1) + j by omega]

lemma runPolls_latticeFrom (t0 p : ℚ) (port : ℕ) (fn : ℚ → Option ℕ) (S : Finset ℕ) :
    ∀ (n k : ℕ) (co : IOCo),
      co.outputs = [⟨port, fn, S, p, some (nextTime t0 p k)⟩] →
      (runPolls co (latticeFrom t0 p k n)).2
          = (latticeFrom t0 p k n).map (fun u => ((0 : ℕ), u))
        ∧ (runPolls co (latticeFrom t0 p k n)).1.outputs
          = [⟨port, fn, S, p, some (nextTime t0 p (k + n))⟩] := by
  intro n
  induction n with
  | zero =>
    intro k co h
    exact ⟨rfl, h⟩
  | succ n ih =>
    intro k co h
    rw [latticeFrom_succ]
    have hdue : (⟨port, fn, S, p, some (nextTime t0 p k)⟩ : OutBinding).due
        (nextTime t0 p k) = true := by
      simp [OutBinding.due]
    have hstep := maybeEmit_single_due co _ (nextTime t0 p k) h hdue
    have hadv : (⟨port, fn, S, p, some (nextTime t0 p k)⟩ : OutBinding).advance
        = ⟨port, fn, S, p, some (nextTime t0 p (k + 1))⟩ := by
      simp only [OutBinding.advance, nextTime_succ]
    rw [hadv] at hstep
    have hrest := ih (k + 1) (maybeEmitActions co (nextTime t0 p k)).1 hstep.1
    show ((maybeEmitActions co (nextTime t0 p k)).2.2
        ++ (runPolls (maybeEmitActions co (nextTime t0 p k)).1
            (latticeFrom t0 p (k + 1) n)).2
          = _) ∧ _
    rw [hstep.2, hrest.1]
    refine ⟨by simp, ?_⟩
    show (runPolls (maybeEmitActions co (nextTime t0 p k)).1
        (latticeFrom t0 p (k + 1) n)).1.outputs = _
    rw [hrest.2, show (k + 1) + n = k + (n + 1) by omega]

lemma runPolls_noop (port : ℕ) (fn : ℚ → Option ℕ) (S : Finset ℕ) (p nxt : ℚ) :
    ∀ (pre : List ℚ) (co : IOCo), co.outputs = [⟨port, fn, S, p, some nxt⟩] →
      (∀ u ∈ pre, u < nxt) →
      (runPolls co pre).2 = [] ∧ (runPolls co pre).1.outputs
        = [⟨port, fn, S, p, some nxt⟩] := by
  intro pre
  induction pre with
  | nil => intro co h _; exact ⟨rfl, h⟩
  | cons u rest ih =>
    intro co h hlt
    have hdue : (⟨port, fn, S, p, some nxt⟩ : OutBinding).due u = false := by
      simp only [OutBinding.due, decide_eq_false_iff_not]
      exact not_le.mpr (hlt u (List.mem_cons_self _ _))
    have hstep := maybeEmit_single_not_due co _ u h hdue
    have hrest := ih (maybeEmitActions co u).1 hstep.1
      (fun v hv => hlt v (List.mem_cons_of_mem _ hv))
    show ((maybeEmitActions co u).2.2
        ++ (runPolls (maybeEmitActions co u).1 rest).2 = [])
      ∧ (runPolls (maybeEmitActions co u).1 rest).1.outputs = _
    rw [hstep.2, hrest.1, hrest.2]
    exact ⟨rfl, rfl⟩

lemma runPolls_append :
    ∀ (a b : List ℚ) (co : IOCo),
      runPolls co (a ++ b)
        = ((runPolls (runPolls co a).1 b).1,
            (runPolls co a).2 ++ (runPolls (runPolls co a).1 b).2) := by
  intro a
  induction a with
  | nil => intro b co; simp [runPolls]
  | cons u rest ih =>
    intro b co
    simp only [List.cons_append, runPolls, List.append_eq]
    rw [ih]
    simp [List.append_assoc]

lemma spiked_binding_outputs (port : ℕ) (fn : ℚ → Option ℕ) (nid : ℕ) (p t0 : ℚ) :
    ((onOutputSpike (bindOutput emptyIOCo port fn [nid] p) t0 nid).1).outputs
      = [⟨port, fn, ([nid] : List ℕ).toFinset, p, some (t0 + p)⟩] := by
  have hroute : (bindOutput emptyIOCo port fn [nid] p).route nid = [0] := by
    rw [bindOutput_route]
    simp [emptyIOCo]
  unfold onOutputSpike
  rw [hroute, List.foldl_cons, List.foldl_nil]
  simp [spikeFoldStep, bindOutput, emptyIOCo, scheduleIfNeeded, List.get?]

/-- C6 (amended): `decoder.readout` is invoked exactly at the polling
times at which the binding is due.  `next_readout_at` is set to
`t0 + period` by the first routed spike and advances by one period per
readout; hence polls strictly before `t0 + period` invoke nothing, and
when `maybe_emit_actions` is called exactly at the times
`{t0 + k·period : 1 ≤ k ≤ n}` the decoder is read out exactly at those
times.  (A poll at any other time `t ≥ next_readout_at` triggers the
readout at `t` itself, which falls outside the claimed lattice — see the
counterexample.) -/
theorem readout_cadence_lattice (port : ℕ) (fn : ℚ → Option ℕ) (nid : ℕ)
    (t0 p : ℚ) (pre : List ℚ) (n : ℕ) (hpre : ∀ u ∈ pre, u < t0 + p) :
    (runPolls ((onOutputSpike (bindOutput emptyIOCo port fn [nid] p) t0 nid).1)
        (pre ++ latticeFrom t0 p 0 n)).2
      = (latticeFrom t0 p 0 n).map (fun u => ((0 : ℕ), u)) := by
  have hout := spiked_binding_outputs port fn nid p t0
  have h0 : t0 + p = nextTime t0 p 0 := by
    unfold nextTime
    push_cast
    ring
  rw [h0] at hout hpre
  have hnoop := runPolls_noop port fn ([nid] : List ℕ).toFinset p (nextTime t0 p 0)
    pre _ hout hpre
  have hlat := runPolls_latticeFrom t0 p port fn ([nid] : List ℕ).toFinset n 0
    _ hnoop.2
  rw [runPolls_append, hnoop.1, hlat.1]
  simp

/-- Witness for `readout_cadence_lattice`: first spike at `t0 = 12`,
period 50, one early poll at 20, then polls at 62 and 112 — readouts occur
exactly at 62 and 112. -/
theorem readout_cadence_lattice_witness :
    (runPolls ((onOutputSpike (bindOutput emptyIOCo 1 (fun _ => none) [3] 50) 12 3).1)
        ([20] ++ latticeFrom 12 50 0 2)).2
      = (latticeFrom 12 50 0 2).map (fun u => ((0 : ℕ), u)) :=
  readout_cadence_lattice 1 (fun _ => none) 3 12 50 [20] 2
    (by
      intro u hu
      rw [List.mem_singleton] at hu
      subst hu
      norm_num)

/-- C6 (counterexample): with the first spike routed at `t0 = 0` and
period 10, a single poll at `t = 15` invokes `readout` at time 15 — but
15 is not of the form `t0 + k · period`, so readout is *not* invoked
exactly at the times `{t0 + k · period : k ≥ 1}`. -/
theorem readout_cadence_counterexample :
    (runPolls ((onOutputSpike (bindOutput emptyIOCo 1 (fun _ => none) [3] 10) 0 3).1)
        [15]).2 = [((0 : ℕ), (15 : ℚ))]
    ∧ ∀ k : ℕ, 1 ≤ k → (15 : ℚ) ≠ 0 + (k : ℚ) * 10 := by
  constructor
  · have hout := spiked_binding_outputs 1 (fun _ => none) 3 10 0
    have hdue : (⟨1, fun _ => none, ([3] : List ℕ).toFinset, 10,
        some ((0 : ℚ) + 10)⟩ : OutBinding).due 15 = true := by
      simp only [OutBinding.due]
      norm_num
    have hstep := maybeEmit_single_due _ _ 15 hout hdue
    show (maybeEmitActions _ 15).2.2 ++ (runPolls (maybeEmitActions _ 15).1 []).2 = _
    rw [hstep.2]
    rfl
  · intro k hk h
    have h1 : (k : ℚ) * 10 = 15 := by linarith
    have h2 : ((2 * k : ℕ) : ℚ) = 3 := by push_cast; linarith
    have h3 : (2 * k : ℕ) = 3 := by exact_mod_cast h2
    omega

/-! ## C1 — runtime tick: goal evaluation and reward application -/

lemma countGoalEvals_append (a b : List REv) :
    countGoalEvals (a ++ b) = countGoalEvals a + countGoalEvals b := by
  simp [countGoalEvals]

lemma countRewards_append (a b : List REv) :
    countRewards (a ++ b) = countRewards a + countRewards b := by
  simp [countRewards]

lemma countGoalEvals_nil : countGoalEvals [] = 0 := rfl

lemma countRewards_nil : countRewards [] = 0 := rfl

lemma countGoalEvals_cons (e : REv) (l : List REv) :
    countGoalEvals (e :: l) = (if isGoalEvalEv e = true then 1 else 0) + countGoalEvals l := by
  unfold countGoalEvals
  rw [List.filter_cons]
  split_ifs <;> simp [Nat.add_comm]

lemma countRewards_cons (e : REv) (l : List REv) :
    countRewards (e :: l) = (if isRewardEv e = true then 1 else 0) + countRewards l := by
  unfold countRewards
  rw [List.filter_cons]
  split_ifs <;> simp [Nat.add_comm]

lemma countGoalEvals_map_inject (t s : ℚ) (l : List (ℕ × ℚ)) :
    countGoalEvals (l.map fun no => REv.inject (t + no.2) no.1 s) = 0 := by
  induction l with
  | nil => rfl
  | cons x rest ih => simp [countGoalEvals_cons, isGoalEvalEv, ih]

lemma countGoalEvals_map_outSpike (t : ℚ) (l : List ℕ) :
    countGoalEvals (l.map fun nid => REv.outSpike t nid) = 0 := by
  induction l with
  | nil => rfl
  | cons x rest ih => simp [countGoalEvals_cons, isGoalEvalEv, ih]

lemma countRewards_map_inject (t s : ℚ) (l : List (ℕ × ℚ)) :
    countRewards (l.map fun no => REv.inject (t + no.2) no.1 s) = 0 := by
  induction l with
  | nil => rfl
  | cons x rest ih => simp [countRewards_cons, isRewardEv, ih]

lemma countRewards_map_outSpike (t : ℚ) (l : List ℕ) :
    countRewards (l.map fun nid => REv.outSpike t nid) = 0 := by
  induction l with
  | nil => rfl
  | cons x rest ih => simp [countRewards_cons, isRewardEv, ih]

lemma maybeEmit_countGoal (w : LoopWorld) (t : ℚ) (e : ℕ) :
    countGoalEvals (maybeEmitAction w t e).2.2 = 0 := by
  unfold maybeEmitAction
  rcases hr : w.readout t with _ | a <;>
    simp [countGoalEvals_cons, countGoalEvals_nil, isGoalEvalEv]

lemma maybeEmit_countReward (w : LoopWorld) (t : ℚ) (e : ℕ) :
    countRewards (maybeEmitAction w t e).2.2 = 0 := by
  unfold maybeEmitAction
  rcases hr : w.readout t with _ | a <;>
    simp [countRewards_cons, countRewards_nil, isRewardEv]

/-- C1 (amended): in `Runtime.tick`, the goal is evaluated exactly on
those ticks where a goal is present *and* the decoder emitted an action
(not on every tick); when it is, `obs_before` is the observation taken
after the SNN step and spike routing (the environment state having been
advanced only by the encode-phase observation), `obs_after` the
observation taken after the action was applied, and the returned reward is
`goal.evaluate(t, obs_before, action, obs_after)` when nonzero.
`net.apply_reward(r)` is called exactly once on a tick that reports reward
`r`, and never on a tick that reports none. -/
theorem tick_reward_discipline (w : LoopWorld) (goalPresent : Bool) (t dtMs : ℚ)
    (env : ℕ) (injectScale : ℚ) :
    (countGoalEvals (tick w goalPresent t dtMs env injectScale).2.2
        = if goalPresent = true ∧ (w.readout t).isSome = true then 1 else 0)
    ∧ (∀ r : ℚ, (tick w goalPresent t dtMs env injectScale).1.1 = some r →
        r ≠ 0 ∧ countRewards (tick w goalPresent t dtMs env injectScale).2.2 = 1
          ∧ REv.rewardApp r ∈ (tick w goalPresent t dtMs env injectScale).2.2)
    ∧ ((tick w goalPresent t dtMs env injectScale).1.1 = none →
        countRewards (tick w goalPresent t dtMs env injectScale).2.2 = 0)
    ∧ (∀ a : ℕ, goalPresent = true → w.readout t = some a →
        (tick w goalPresent t dtMs env injectScale).1.1
          = (if w.evalGoal t (w.observe t (w.observe t env).2).1 a
                (w.observe t (w.applyAction t a
                  (w.observe t (w.observe t env).2).2)).1 = 0
            then none
            else some (w.evalGoal t (w.observe t (w.observe t env).2).1 a
              (w.observe t (w.applyAction t a
                (w.observe t (w.observe t env).2).2)).1))) := by
  cases goalPresent with
  | false =>
    refine ⟨?_, ?_, ?_, ?_⟩
    · simp [tick, encodeObservation, countGoalEvals_append,
        countGoalEvals_map_inject, countGoalEvals_map_outSpike,
        countGoalEvals_cons, countGoalEvals_nil, isGoalEvalEv, maybeEmit_countGoal]
    · intro r h
      simp [tick] at h
    · intro _
      simp [tick, encodeObservation, countRewards_append,
        countRewards_map_inject, countRewards_map_outSpike,
        countRewards_cons, countRewards_nil, isRewardEv, maybeEmit_countReward]
    · intro a h
      exact absurd h (by simp)
  | true =>
    rcases hr : w.readout t with _ | a
    · refine ⟨?_, ?_, ?_, ?_⟩
      · simp [tick, encodeObservation, maybeEmitAction, hr, countGoalEvals_append,
          countGoalEvals_map_inject, countGoalEvals_map_outSpike, countGoalEvals_cons, countGoalEvals_nil, isGoalEvalEv, maybeEmit_countGoal]
      · intro r h
        simp [tick, encodeObservation, maybeEmitAction, hr] at h
      · intro _
        simp [tick, encodeObservation, maybeEmitAction, hr, countRewards_append,
          countRewards_map_inject, countRewards_map_outSpike, countRewards_cons, countRewards_nil, isRewardEv, maybeEmit_countReward]
      · intro a _ h2
        exact Option.noConfusion h2
    · by_cases hz : w.evalGoal t (w.observe t (w.observe t env).2).1 a
          (w.observe t (w.applyAction t a (w.observe t (w.observe t env).2).2)).1 = 0
      · refine ⟨?_, ?_, ?_, ?_⟩
        · simp [tick, encodeObservation, maybeEmitAction, hr, hz,
            countGoalEvals_append, countGoalEvals_map_inject,
            countGoalEvals_map_outSpike, countGoalEvals_cons, countGoalEvals_nil, isGoalEvalEv, maybeEmit_countGoal]
        · intro r h
          simp [tick, encodeObservation, maybeEmitAction, hr, hz] at h
        · intro _
          simp [tick, encodeObservation, maybeEmitAction, hr, hz,
            countRewards_append, countRewards_map_inject,
            countRewards_map_outSpike, countRewards_cons, countRewards_nil, isRewardEv, maybeEmit_countReward]
        · intro a2 _ h2
          injection h2 with h2
          subst h2
          simp [tick, encodeObservation, maybeEmitAction, hr, hz]
      · refine ⟨?_, ?_, ?_, ?_⟩
        · simp [tick, encodeObservation, maybeEmitAction, hr, hz,
            countGoalEvals_append, countGoalEvals_map_inject,
            countGoalEvals_map_outSpike, countGoalEvals_cons, countGoalEvals_nil, isGoalEvalEv, maybeEmit_countGoal]
        · intro r h
          have hsome : (tick w true t dtMs env injectScale).1.1
              = some (w.evalGoal t (w.observe t (w.observe t env).2).1 a
                (w.observe t (w.applyAction t a
                  (w.observe t (w.observe t env).2).2)).1) := by
            simp [tick, encodeObservation, maybeEmitAction, hr, hz]
          rw [hsome] at h
          injection h with h
          subst h
          refine ⟨hz, ?_, ?_⟩
          · simp [tick, encodeObservation, maybeEmitAction, hr, hz,
              countRewards_append, countRewards_map_inject,
              countRewards_map_outSpike, countRewards_cons, countRewards_nil, isRewardEv, maybeEmit_countReward]
          · simp [tick, encodeObservation, maybeEmitAction, hr, hz]
        · intro h
          simp [tick, encodeObservation, maybeEmitAction, hr, hz] at h
        · intro a2 _ h2
          injection h2 with h2
          subst h2
          simp [tick, encodeObservation, maybeEmitAction, hr, hz]

/-- A world whose decoder never emits an action and whose goal, were it
consulted, would return the nonzero reward 7; the encoder and network are
silent. -/
def noActWorld : LoopWorld :=
  ⟨fun _ e => (e, e), fun _ _ e => e, fun _ _ => [], fun _ => none,
    fun _ _ _ _ => 7, fun _ _ => []⟩

/-- C1 (counterexample): on a tick where the decoder returns no action,
the goal is never evaluated and no reward is applied, although a goal is
present and `goal.evaluate` would have returned `7 ≠ 0` — so the goal is
*not* evaluated on every runtime tick.  The recorded trace also exhibits
the actual call order: both environment observations happen *after*
`net.step`, not at the start of the tick. -/
theorem tick_no_goal_eval_counterexample :
    countGoalEvals (tick noActWorld true 0 1 0 1).2.2 = 0
    ∧ countRewards (tick noActWorld true 0 1 0 1).2.2 = 0
    ∧ noActWorld.evalGoal 0 0 0 0 = 7
    ∧ (tick noActWorld true 0 1 0 1).2.2
        = [REv.observeEnv 0, REv.stepNet 0 1, REv.observeEnv 0,
            REv.readoutDec 0, REv.observeEnv 0] := by
  refine ⟨rfl, rfl, rfl, rfl⟩

/-- A world whose decoder emits action 2 and whose goal returns reward 7;
the environment state advances on every observation. -/
def actWorld : LoopWorld :=
  ⟨fun _ e => (e, e + 1), fun _ a e => e + 100 * a, fun _ _ => [], fun _ => some 2,
    fun _ _ _ _ => 7, fun _ _ => []⟩

/-- Witness for `tick_reward_discipline` on a concrete world where an
action is emitted and the goal returns `7`. -/
theorem tick_reward_discipline_witness :
    countGoalEvals (tick actWorld true 0 1 0 1).2.2 = 1
    ∧ countRewards (tick actWorld true 0 1 0 1).2.2 = 1 := by
  have h := tick_reward_discipline actWorld true 0 1 0 1
  constructor
  · rw [h.1]
    simp [actWorld]
  · have hd := h.2.2.2 2 rfl rfl
    have hsome : (tick actWorld true 0 1 0 1).1.1 = some 7 := by
      rw [hd]
      norm_num [actWorld]
    exact (h.2.1 7 hsome).2.1

end NeuroNet
